import Mathlib

/-!
Verification of the Pyston inline-cache rewriter (src/asm_writing/rewriter.cpp)
against its natural-language specification.  The definitions below are a
shallow embedding of the data model and the operations of the rewriter;
each is annotated with the source lines it is translated from.  Helper
declarations whose C++ counterpart lives in a header that is not part of the
sources (rewriter.h / assembler.h) are modelled from the specification and
say so in their doc comment.
-/

namespace Pyston

/-- x86-64 general-purpose registers, in their hardware encoding order
(RAX=0, RCX=1, RDX=2, RBX=3, RSP=4, RBP=5, RSI=6, RDI=7, R8..R15). -/
inductive Reg
  | RAX | RCX | RDX | RBX | RSP | RBP | RSI | RDI
  | R8 | R9 | R10 | R11 | R12 | R13 | R14 | R15
deriving DecidableEq, Repr

/-- Modelled from the spec: `assembler::Register::isCalleeSave` is declared in
assembler.h (not under src/).  Per spec section 6 (System V AMD64), the
callee-save registers are RBX, RBP, R12-R15 and RSP. -/
def Reg.isCalleeSave : Reg → Bool
  | .RBX | .RBP | .R12 | .R13 | .R14 | .R15 | .RSP => true
  | _ => false

/-- The `Location` tagged union (spec section 3; the class itself is declared in
rewriter.h).  `scratch_offset` / `stack_offset` are byte offsets. -/
inductive Location
  | Register (r : Reg)
  | XMMRegister (n : Nat)
  | Scratch (scratch_offset : Int)
  | Stack (stack_offset : Int)
  | StackIndirect (offset1 offset2 : Int)
  | AnyReg
  | LNone
  | Uninitialized
deriving DecidableEq, Repr

/-- Location::isClobberedByCall (rewriter.cpp:91-106).  The source
RELEASE_ASSERTs on the remaining location kinds; the value returned for them
here is never consulted by the functions below. -/
def Location.isClobberedByCall : Location → Bool
  | .Register r => !r.isCalleeSave
  | .XMMRegister _ => true
  | .Scratch _ => false
  | .Stack _ => false
  | _ => true

/-- RefType (rewriter.h, per spec section 4.7). -/
inductive RefType
  | OWNED | BORROWED | UNKNOWN
deriving DecidableEq, Repr

/-- The fields of `RewriterVar` (declared in rewriter.h, described in spec
section 3) that the verified operations consult.  `uses` holds action-queue
indices; `scratch_allocation` is the `(start_slot, num_slots)` pair, `(0,0)`
meaning no allocation, exactly as in the source. -/
structure RewriterVar where
  reftype : RefType := .UNKNOWN
  nullable : Bool := false
  is_constant : Bool := false
  constant_value : Nat := 0
  locations : List Location := []
  uses : List Nat := []
  next_use : Nat := 0
  num_refs_consumed : Nat := 0
  last_refconsumed_numuses : Nat := 0
  is_arg : Bool := false
  arg_loc : Location := .Uninitialized
  scratch_allocation : Nat × Nat := (0, 0)
deriving DecidableEq, Repr

/-- RewriterVar::isScratchAllocation (rewriter.h): the allocation pair differs
from (0, 0). -/
def RewriterVar.isScratchAllocation (v : RewriterVar) : Bool :=
  v.scratch_allocation ≠ (0, 0)

/-- RewriterVar::refHandedOff (rewriter.cpp:1304-1307). -/
def RewriterVar.refHandedOff (v : RewriterVar) : Bool :=
  v.reftype == RefType.OWNED && decide (0 < v.num_refs_consumed)
    && v.last_refconsumed_numuses == v.uses.length

/-- RewriterVar::needsDecref (rewriter.cpp:1354-1370).  The source reads
`uses[last_refconsumed_numuses - 1]`; `List.getD` stands for that indexing. -/
def RewriterVar.needsDecref (v : RewriterVar) (current_action_index : Nat) : Bool :=
  if v.reftype ≠ RefType.OWNED then false
  else if v.num_refs_consumed = 0 then true
  else if v.uses.getD (v.last_refconsumed_numuses - 1) 0 = current_action_index then false
  else true

/-- Signed reading of a 64-bit value, used to model the C++ casts between
`uint64_t` and `int64_t`. -/
def toSigned64 (n : Nat) : Int :=
  if n % 2 ^ 64 < 2 ^ 63 then ((n % 2 ^ 64 : Nat) : Int)
  else ((n % 2 ^ 64 : Nat) : Int) - 2 ^ 64

/-- Whether a signed 64-bit quantity does not fit in signed 32 bits. -/
def isLargeConstantI (i : Int) : Bool :=
  i < -(2 ^ 31) || 2 ^ 31 - 1 < i

/-- Modelled from the spec: `Rewriter::isLargeConstant` is declared in
rewriter.h (not under src/); per the spec (sections 4.3 and 8) a constant is
large when it does not fit in a signed 32-bit immediate. -/
def isLargeConstant (n : Nat) : Bool :=
  isLargeConstantI (toSigned64 n)

/-- The 64-bit wrapping subtraction `val - constant_value` performed on
`uint64_t` operands and stored into an `int64_t` (rewriter.cpp:176). -/
def sub64 (a b : Nat) : Int :=
  toSigned64 (a + (2 ^ 64 - b % 2 ^ 64))

/-! ### C1: incref emission in commit's emit loop (rewriter.cpp:1510-1524) -/

/-- The `continue` condition of the per-action incref loop in Rewriter::commit
(rewriter.cpp:1513-1519): the var is handed off and the action executing now
is its hand-off action `uses[last_refconsumed_numuses - 1]`. -/
def increfSkippedForHandoff (v : RewriterVar) (i : Nat) : Bool :=
  v.refHandedOff && v.uses.getD (v.last_refconsumed_numuses - 1) 0 == i

/-- The vars of `actions[i].consumed_refs` for which commit's emit loop calls
`_incref(var, 1)` right before running action `i` (rewriter.cpp:1510-1524). -/
def emitLoopIncrefs (consumed_refs : List RewriterVar) (i : Nat) : List RewriterVar :=
  consumed_refs.filter (fun v => !increfSkippedForHandoff v i)

/-- The hand-off point exactly as claim C1 words it: reftype is Owned,
num_refs_consumed > 0, last_refconsumed_numuses equals uses.size(), and the
current action index is uses[last_refconsumed_numuses - 1]. -/
def handoffPoint (v : RewriterVar) (i : Nat) : Prop :=
  v.reftype = RefType.OWNED ∧ 0 < v.num_refs_consumed
    ∧ v.last_refconsumed_numuses = v.uses.length
    ∧ v.uses.getD (v.last_refconsumed_numuses - 1) 0 = i

instance (v : RewriterVar) (i : Nat) : Decidable (handoffPoint v i) := by
  unfold handoffPoint; infer_instance

theorem increfSkipped_iff (v : RewriterVar) (i : Nat) :
    increfSkippedForHandoff v i = true ↔ handoffPoint v i := by
  simp [increfSkippedForHandoff, RewriterVar.refHandedOff, handoffPoint,
    Bool.and_eq_true, and_assoc]

theorem count_filter_of_pos {α : Type} [DecidableEq α] {p : α → Bool} {a : α}
    (h : p a = true) : ∀ l : List α, (l.filter p).count a = l.count a := by
  intro l
  induction l with
  | nil => rfl
  | cons b t ih =>
    by_cases hb : p b = true
    · simp [List.filter_cons, hb, List.count_cons, ih]
    · have hba : ¬(b = a) := fun he => hb (he ▸ h)
      simp [List.filter_cons, hb, List.count_cons, ih, hba]

theorem count_filter_of_neg {α : Type} [DecidableEq α] {p : α → Bool} {a : α}
    (h : p a = false) : ∀ l : List α, (l.filter p).count a = 0 := by
  intro l
  rw [List.count_eq_zero]
  intro hmem
  have := List.of_mem_filter hmem
  rw [h] at this
  exact Bool.false_ne_true this

/-- C1 (confirmed).  In commit's emit loop, for each occurrence of a var in an
action's consumed_refs list the rewriter emits exactly one incref before the
action, unless the action is that var's hand-off point (Owned,
num_refs_consumed > 0, last_refconsumed_numuses = uses.size(), and i =
uses[last_refconsumed_numuses - 1]), in which case no incref is emitted for
it: the multiset of incref'd vars is the consumed_refs list minus the vars at
their hand-off point. -/
theorem commit_emits_incref_per_consumed_ref_unless_handoff
    (consumed_refs : List RewriterVar) (i : Nat) (v : RewriterVar) :
    (emitLoopIncrefs consumed_refs i).count v =
      if handoffPoint v i then 0 else consumed_refs.count v := by
  by_cases h : handoffPoint v i
  · have hskip : increfSkippedForHandoff v i = true := (increfSkipped_iff v i).mpr h
    simp only [h, if_true, emitLoopIncrefs]
    exact count_filter_of_neg (by simp [hskip]) consumed_refs
  · have hskip : increfSkippedForHandoff v i = false := by
      cases hcase : increfSkippedForHandoff v i
      · rfl
      · exact absurd ((increfSkipped_iff v i).mp hcase) h
    simp only [h, if_false, emitLoopIncrefs]
    exact count_filter_of_pos (by simp [hskip]) consumed_refs

/-! ### C10: _incref on a constant NULL (rewriter.cpp:536-576) -/

/-- Instructions the verified emission paths produce.  Only the shapes matter
for the claims, not the encodings. -/
inductive AsmInstr
  | clear_reg (dst : Reg)
  | mov_rr (src dst : Reg)
  | mov_imm (val : Nat) (dst : Reg)
  | lea (base : Reg) (offset : Int) (dst : Reg)
  | incq_addr (addr : Nat)
  | incq_ind (base : Reg) (offset : Nat)
  | add_imm_ind (val : Nat) (base : Reg) (offset : Nat)
deriving DecidableEq, Repr

/-- Rewriter::_incref (rewriter.cpp:536-576), with Py_REF_DEBUG disabled.
`refcnt_off` stands for offsetof(Box, ob_refcnt); `reg_of_var` stands for the
register `var->getInReg()` returns in the non-constant branch (code emitted by
getInReg itself is outside this list; it is never reached for a constant). -/
def increfInstrs (refcnt_off : Nat) (v : RewriterVar) (num_refs : Nat)
    (reg_of_var : Reg) : List AsmInstr :=
  if v.is_constant && v.constant_value == 0 then []
  else if v.is_constant && !isLargeConstant v.constant_value then
    List.replicate num_refs (.incq_addr (v.constant_value + refcnt_off))
  else if num_refs == 1 then [.incq_ind reg_of_var refcnt_off]
  else [.add_imm_ind num_refs reg_of_var refcnt_off]

/-- The incref instructions commit's emit loop (rewriter.cpp:1510-1524) places
immediately before action `i`, obtained by running `_incref(var, 1)` for every
consumed var that is not at its hand-off point. -/
def emitLoopIncrefCode (refcnt_off : Nat) (consumed_refs : List RewriterVar)
    (i : Nat) (reg_of : RewriterVar → Reg) : List AsmInstr :=
  (emitLoopIncrefs consumed_refs i).foldr
    (fun v acc => increfInstrs refcnt_off v 1 (reg_of v) ++ acc) []

/-- C10 (confirmed).  _incref on a var that is a constant with value 0 emits
no instructions, for every positive ref count, and therefore an action whose
consumed_refs consist of such a var gets no incref code before it. -/
theorem incref_constant_null_noop (refcnt_off : Nat) (v : RewriterVar)
    (num_refs : Nat) (r : Reg)
    (hc : v.is_constant = true) (hz : v.constant_value = 0) (hn : 0 < num_refs) :
    increfInstrs refcnt_off v num_refs r = []
    ∧ ∀ (i : Nat) (reg_of : RewriterVar → Reg),
        emitLoopIncrefCode refcnt_off [v] i reg_of = [] := by
  have hbase : ∀ n rr, increfInstrs refcnt_off v n rr = [] := by
    intro n rr
    simp [increfInstrs, hc, hz]
  refine ⟨hbase num_refs r, ?_⟩
  intro i reg_of
  simp only [emitLoopIncrefCode, emitLoopIncrefs, List.filter]
  cases hf : !increfSkippedForHandoff v i
  · rfl
  · simp [hbase]

/-- A constant-NULL var, for the C10 witness. -/
def constNullVar : RewriterVar :=
  { is_constant := true, constant_value := 0 }

theorem incref_constant_null_noop_witness :
    increfInstrs 0 constNullVar 3 .RAX = [] :=
  (incref_constant_null_noop 0 constNullVar 3 .RAX rfl rfl (by decide)).1

/-! ### C5: guard-jump trampolining, Rewriter::_nextSlotJump (rewriter.cpp:290-310) -/

/-- Condition codes used by the rewriter's guards. -/
inductive Cond
  | equal | notEqual | sign | notZero
deriving DecidableEq, Repr

/-- What _nextSlotJump emits: either a conditional jump targeting a prior
guard jump (a trampoline hop) or a conditional jump to the end of the slot. -/
inductive GuardJumpEmit
  | shortToPrior (target_offset : Nat) (cond : Cond)
  | toSlotEnd (slot_size : Nat) (cond : Cond)
deriving DecidableEq, Repr

/-- Rewriter::_nextSlotJump (rewriter.cpp:290-310).  `bytes_written` is
assembler->bytesWritten() before emitting; `jcc_end` is bytesWritten() right
after the emitted jcc (the value stored as the record's end offset).  The
reverse `find?` is the source's rbegin/rend loop that breaks on the first
record with the same condition. -/
def nextSlotJump (slot_size bytes_written jcc_end : Nat)
    (next_slot_jmps : List (Nat × Nat × Cond)) (condition : Cond) :
    GuardJumpEmit × List (Nat × Nat × Cond) :=
  match (next_slot_jmps.reverse.find? (fun j => j.2.2 == condition)).map (fun j => j.1) with
  | some off =>
      if bytes_written - off < 0x80 then
        (.shortToPrior off condition, next_slot_jmps)
      else
        (.toSlotEnd slot_size condition,
          next_slot_jmps ++ [(bytes_written, jcc_end, condition)])
  | none =>
      (.toSlotEnd slot_size condition,
        next_slot_jmps ++ [(bytes_written, jcc_end, condition)])

/-- The most recent previously-emitted guard jump with a given condition:
the last matching record of the prior-jump list. -/
def mostRecentSameCond (jmps : List (Nat × Nat × Cond)) (c : Cond) :
    Option (Nat × Nat × Cond) :=
  (jmps.filter (fun j => j.2.2 == c)).getLast?

theorem find?_eq_head?_filter {α : Type} (p : α → Bool) :
    ∀ l : List α, l.find? p = (l.filter p).head? := by
  intro l
  induction l with
  | nil => rfl
  | cons a t ih =>
    cases h : p a with
    | true => rw [List.find?_cons_of_pos _ h, List.filter_cons_of_pos h, List.head?_cons]
    | false =>
      have hne : ¬p a = true := by simp [h]
      rw [List.find?_cons_of_neg _ hne, List.filter_cons_of_neg hne, ih]

theorem reverse_find?_eq_getLast?_filter {α : Type} (p : α → Bool) (l : List α) :
    l.reverse.find? p = (l.filter p).getLast? := by
  rw [find?_eq_head?_filter, List.filter_reverse, List.head?_reverse]

/-- C5 (confirmed).  When emitting a guard's conditional jump to the slow
path: if the most recent prior guard jump with the same condition is within
127 bytes of the current emission offset, a conditional jump targeting that
prior jump is emitted and the prior-jump list is unchanged; otherwise a
conditional jump to the slot end is emitted and (emit offset, end offset,
condition) is appended to the list. -/
theorem guard_jump_trampoline (slot_size bytes_written jcc_end : Nat)
    (jmps : List (Nat × Nat × Cond)) (c : Cond) :
    (∀ j, mostRecentSameCond jmps c = some j → bytes_written - j.1 < 0x80 →
        nextSlotJump slot_size bytes_written jcc_end jmps c
          = (.shortToPrior j.1 c, jmps))
    ∧ (∀ j, mostRecentSameCond jmps c = some j → ¬(bytes_written - j.1 < 0x80) →
        nextSlotJump slot_size bytes_written jcc_end jmps c
          = (.toSlotEnd slot_size c, jmps ++ [(bytes_written, jcc_end, c)]))
    ∧ (mostRecentSameCond jmps c = none →
        nextSlotJump slot_size bytes_written jcc_end jmps c
          = (.toSlotEnd slot_size c, jmps ++ [(bytes_written, jcc_end, c)])) := by
  have hfind : jmps.reverse.find? (fun j => j.2.2 == c) = mostRecentSameCond jmps c :=
    reverse_find?_eq_getLast?_filter _ jmps
  refine ⟨?_, ?_, ?_⟩
  · intro j hj hlt
    simp [nextSlotJump, hfind, hj, hlt]
  · intro j hj hlt
    simp [nextSlotJump, hfind, hj, hlt]
  · intro hnone
    simp [nextSlotJump, hfind, hnone]

theorem guard_jump_trampoline_witness :
    mostRecentSameCond [(10, 16, Cond.equal), (30, 36, Cond.notEqual)] Cond.equal
        = some (10, 16, Cond.equal)
    ∧ 100 - 10 < 0x80
    ∧ nextSlotJump 512 100 106 [(10, 16, Cond.equal), (30, 36, Cond.notEqual)] Cond.equal
        = (.shortToPrior 10 Cond.equal, [(10, 16, Cond.equal), (30, 36, Cond.notEqual)]) :=
  ⟨by decide, by decide,
    (guard_jump_trampoline 512 100 106 [(10, 16, Cond.equal), (30, 36, Cond.notEqual)]
      Cond.equal).1 (10, 16, Cond.equal) (by decide) (by decide)⟩

/-! ### C7: getAttr memoization, RewriterVar::getAttr (rewriter.cpp:416-436) -/

/-- The collect-phase state getAttr touches, for one base var: the rewriter's
`added_changing_action` flag and action counter (spec section 4.1: the flag is
set by addAction exactly when a MUTATION action is enqueued; addAction itself
lives in rewriter.h), a fresh-var counter standing for createNewVar, and the
base var's `getattrs` memo keyed on (offset, (int)type). -/
structure CollectState where
  added_changing_action : Bool
  num_actions : Nat
  next_var_id : Nat
  getattrs : List ((Int × Nat) × Nat)
deriving DecidableEq, Repr

/-- RewriterVar::getAttr (rewriter.cpp:416-436) at collect time, returning the
result var (as an id) and the successor state.  A memo hit returns the mapped
var and enqueues nothing (the `dest` argument only triggers a getInReg on the
memoized var, which does not touch the action queue, so it is omitted); a
miss, or any call after a changing action, creates a fresh var and enqueues
one NORMAL _getAttr action (which leaves the changing flag clear). -/
def getAttr (s : CollectState) (offset : Int) (ty : Nat) : Nat × CollectState :=
  if !s.added_changing_action then
    match s.getattrs.lookup (offset, ty) with
    | some vid => (vid, s)
    | none =>
      let vid := s.next_var_id
      (vid, { s with next_var_id := vid + 1,
                     getattrs := ((offset, ty), vid) :: s.getattrs,
                     num_actions := s.num_actions + 1 })
  else
    let vid := s.next_var_id
    (vid, { s with next_var_id := vid + 1, num_actions := s.num_actions + 1 })

/-- C7 (confirmed).  While no mutating action has been recorded, repeating a
getAttr with the same (offset, mov-type) returns the same var as the first
call and leaves the state (hence the action queue) unchanged; once a mutating
action has been recorded, every getAttr returns the freshly created var
`next_var_id` and enqueues a new action. -/
theorem getattr_memoization (s : CollectState) (offset : Int) (ty : Nat) :
    (s.added_changing_action = false →
        getAttr (getAttr s offset ty).2 offset ty = getAttr s offset ty)
    ∧ (s.added_changing_action = true →
        (getAttr s offset ty).1 = s.next_var_id
        ∧ (getAttr s offset ty).2.num_actions = s.num_actions + 1
        ∧ (getAttr s offset ty).2.next_var_id = s.next_var_id + 1) := by
  constructor
  · intro hflag
    cases hms : s.getattrs.lookup (offset, ty) with
    | some vid => simp [getAttr, hflag, hms]
    | none =>
      simp [getAttr, hflag, hms, List.lookup]
  · intro hflag
    simp [getAttr, hflag]

theorem getattr_memoization_witness :
    getAttr (getAttr ⟨false, 0, 0, []⟩ 16 8).2 16 8 = getAttr ⟨false, 0, 0, []⟩ 16 8
    ∧ (getAttr ⟨true, 5, 7, []⟩ 16 8).1 = 7 :=
  ⟨(getattr_memoization ⟨false, 0, 0, []⟩ 16 8).1 rfl,
    ((getattr_memoization ⟨true, 5, 7, []⟩ 16 8).2 rfl).1⟩

/-! ### C8/C9: guards recorded at collect time (rewriter.cpp:278-288, 364-373) -/

/-- The collect-phase state the guard-recording entry points touch: the
per-var `attr_guards` dedup set, the const_loader's (value, var) dedup list,
the action counter, and the fresh-var counter. -/
structure GuardCollectState where
  attr_guards : List (Int × Nat × Bool)
  consts : List (Nat × Nat)
  num_actions : Nat
  next_var_id : Nat
deriving DecidableEq, Repr

/-- Rewriter::loadConst (rewriter.cpp:941-954): return the var of an existing
consts entry with this value, else create a constant var and append it.  No
action is enqueued. -/
def loadConst (s : GuardCollectState) (val : Nat) : Nat × GuardCollectState :=
  match s.consts.find? (fun p => p.1 == val) with
  | some p => (p.2, s)
  | none =>
    let vid := s.next_var_id
    (vid, { s with consts := s.consts ++ [(val, vid)], next_var_id := vid + 1 })

/-- RewriterVar::addAttrGuard (rewriter.cpp:364-373) at collect time: if the
(offset, value, negate) triple was already guarded on this var, return with no
effect; otherwise record the triple, loadConst the value and enqueue one GUARD
action. -/
def addAttrGuard (s : GuardCollectState) (offset : Int) (val : Nat) (negate : Bool) :
    GuardCollectState :=
  if (offset, val, negate) ∈ s.attr_guards then s
  else
    let s1 := (loadConst s val).2
    { s1 with attr_guards := (offset, val, negate) :: s1.attr_guards,
              num_actions := s1.num_actions + 1 }

/-- C8 (confirmed).  A second addAttrGuard with an identical (offset, value,
negate) triple is a no-op: the state after two identical calls equals the
state after one, and a single call enqueues at most one guard action, so at
most one cmp+jcc is emitted per triple per var. -/
theorem attr_guard_dedup (s : GuardCollectState) (offset : Int) (val : Nat)
    (negate : Bool) :
    addAttrGuard (addAttrGuard s offset val negate) offset val negate
      = addAttrGuard s offset val negate
    ∧ (addAttrGuard s offset val negate).num_actions ≤ s.num_actions + 1 := by
  constructor
  · by_cases hmem : (offset, val, negate) ∈ s.attr_guards
    · simp [addAttrGuard, hmem]
    · have hmem2 : (offset, val, negate)
          ∈ (addAttrGuard s offset val negate).attr_guards := by
        simp [addAttrGuard, hmem]
      conv_lhs => rw [addAttrGuard, if_pos hmem2]
  · by_cases hmem : (offset, val, negate) ∈ s.attr_guards
    · simp [addAttrGuard, hmem]
    · cases hfind : s.consts.find? (fun p => p.1 == val) with
      | some p => simp [addAttrGuard, hmem, loadConst, hfind]
      | none => simp [addAttrGuard, hmem, loadConst, hfind]

/-- RewriterVar::addGuard (rewriter.cpp:278-288) at collect time.  On a var
that is already a constant the source RELEASE_ASSERTs that the constant
equals the guarded value (modelled as `.error ()`) and otherwise returns
without enqueuing anything; on a non-constant var it loadConsts the value and
enqueues one GUARD action. -/
def addGuard (s : GuardCollectState) (v : RewriterVar) (val : Nat) :
    Except Unit GuardCollectState :=
  if v.is_constant then
    if v.constant_value = val then .ok s else .error ()
  else
    let s1 := (loadConst s val).2
    .ok { s1 with num_actions := s1.num_actions + 1 }

/-- C9 (confirmed).  addGuard(val) on a var that is already a constant
release-asserts when the constant differs from val, and when it equals val it
returns with the collect state untouched, so no guard action (hence no
compare or jump) is recorded for that guard. -/
theorem addguard_constant (s : GuardCollectState) (v : RewriterVar) (val : Nat)
    (hc : v.is_constant = true) :
    (v.constant_value ≠ val → addGuard s v val = .error ())
    ∧ (v.constant_value = val → addGuard s v val = .ok s) := by
  constructor
  · intro hne
    simp [addGuard, hc, hne]
  · intro heq
    simp [addGuard, hc, heq]

theorem addguard_constant_witness :
    addGuard ⟨[], [], 0, 0⟩ { is_constant := true, constant_value := 7 } 9 = .error ()
    ∧ addGuard ⟨[], [], 0, 0⟩ { is_constant := true, constant_value := 7 } 7
        = .ok ⟨[], [], 0, 0⟩ :=
  ⟨(addguard_constant ⟨[], [], 0, 0⟩ { is_constant := true, constant_value := 7 } 9
      rfl).1 (by decide),
    (addguard_constant ⟨[], [], 0, 0⟩ { is_constant := true, constant_value := 7 } 7
      rfl).2 rfl⟩

/-! ### C6: constant materialization, ConstLoader::loadConstIntoReg
(rewriter.cpp:150-230) -/

/-- All sixteen GP registers in hardware-encoding order; the reg_num loop of
ConstLoader::tryLea (rewriter.cpp:169) walks them in this order. -/
def allGPRegs : List Reg :=
  [.RAX, .RCX, .RDX, .RBX, .RSP, .RBP, .RSI, .RDI,
   .R8, .R9, .R10, .R11, .R12, .R13, .R14, .R15]

/-- The register of a Location when it is a GP register. -/
def locAsReg : Location → Option Reg
  | .Register r => some r
  | _ => none

/-- ConstLoader::findConst (rewriter.cpp:195-213): walk the consts list, and
for every entry with the requested value look for a register location of its
var; the first register found is returned. -/
def findConst : List (Nat × RewriterVar) → Nat → Option Reg
  | [], _ => none
  | p :: rest, val =>
    if p.1 = val then
      match p.2.locations.findSome? locAsReg with
      | some r => some r
      | none => findConst rest val
    else findConst rest val

/-- One reg_num step of ConstLoader::tryLea (rewriter.cpp:169-181):
skip an empty or non-constant register, skip when the wrapped difference is
itself a large constant, else report the register and the lea displacement. -/
def tryLeaStep (reg_of : Reg → Option RewriterVar) (val : Nat) (r : Reg) :
    Option (Reg × Int) :=
  match reg_of r with
  | none => none
  | some var =>
    if !var.is_constant then none
    else if isLargeConstantI (sub64 val var.constant_value) then none
    else some (r, sub64 val var.constant_value)

/-- ConstLoader::tryLea (rewriter.cpp:164-186): only attempted for large
constants; scans the registers for a constant-holding var whose difference
from `val` fits in signed 32 bits. -/
def tryLea (reg_of : Reg → Option RewriterVar) (val : Nat) : Option (Reg × Int) :=
  if isLargeConstant val then allGPRegs.findSome? (tryLeaStep reg_of val)
  else none

/-- ConstLoader::loadConstIntoReg (rewriter.cpp:215-230): zero idiom, then
reg-reg copy from an already-materialized constant (tryRegRegMove,
rewriter.cpp:150-162, which elides the move when source and destination
coincide), then lea from a nearby constant, then a plain 64-bit immediate
move. -/
def loadConstIntoReg (consts : List (Nat × RewriterVar))
    (reg_of : Reg → Option RewriterVar) (val : Nat) (dst : Reg) : List AsmInstr :=
  if val = 0 then [.clear_reg dst]
  else
    match findConst consts val with
    | some src => if src = dst then [] else [.mov_rr src dst]
    | none =>
      match tryLea reg_of val with
      | some (base, off) => [.lea base off dst]
      | none => [.mov_imm val dst]

/-- Register `r` holds a var registered in the consts list as the constant
`val` (the condition findConst searches for). -/
def holdsConstInReg (consts : List (Nat × RewriterVar)) (val : Nat) (r : Reg) : Prop :=
  ∃ p ∈ consts, p.1 = val ∧ Location.Register r ∈ p.2.locations

/-- Some register holds a var that is a constant whose wrapped difference
from `val` fits in signed 32 bits (the condition tryLea searches for). -/
def leaFeasible (reg_of : Reg → Option RewriterVar) (val : Nat) : Prop :=
  ∃ r var, reg_of r = some var ∧ var.is_constant = true
    ∧ isLargeConstantI (sub64 val var.constant_value) = false

theorem mem_allGPRegs (r : Reg) : r ∈ allGPRegs := by
  cases r <;> decide

theorem locAsReg_eq_some {l : Location} {r : Reg} :
    locAsReg l = some r ↔ l = .Register r := by
  cases l <;> simp [locAsReg]

theorem findConst_eq_some {consts : List (Nat × RewriterVar)} {val : Nat} {r : Reg}
    (h : findConst consts val = some r) : holdsConstInReg consts val r := by
  induction consts with
  | nil => exact absurd h (by simp [findConst])
  | cons p rest ih =>
    rw [findConst] at h
    by_cases hv : p.1 = val
    · rw [if_pos hv] at h
      cases hfs : p.2.locations.findSome? locAsReg with
      | some r0 =>
        rw [hfs] at h
        obtain ⟨l0, hl0mem, hl0⟩ := List.exists_of_findSome?_eq_some hfs
        cases h
        exact ⟨p, List.mem_cons_self p rest, hv, locAsReg_eq_some.mp hl0 ▸ hl0mem⟩
      | none =>
        rw [hfs] at h
        obtain ⟨q, hq, hqv, hqr⟩ := ih h
        exact ⟨q, List.mem_cons_of_mem p hq, hqv, hqr⟩
    · rw [if_neg hv] at h
      obtain ⟨q, hq, hqv, hqr⟩ := ih h
      exact ⟨q, List.mem_cons_of_mem p hq, hqv, hqr⟩

theorem findConst_eq_none {consts : List (Nat × RewriterVar)} {val : Nat}
    (h : findConst consts val = none) : ∀ r, ¬holdsConstInReg consts val r := by
  induction consts with
  | nil => intro r ⟨p, hp, _⟩; exact absurd hp (List.not_mem_nil p)
  | cons p rest ih =>
    rw [findConst] at h
    intro r ⟨q, hq, hqv, hqr⟩
    by_cases hv : p.1 = val
    · rw [if_pos hv] at h
      cases hfs : p.2.locations.findSome? locAsReg with
      | some r0 => rw [hfs] at h; exact Option.noConfusion h
      | none =>
        rw [hfs] at h
        rcases List.mem_cons.mp hq with hqp | hqrest
        · subst hqp
          have := List.findSome?_eq_none_iff.mp hfs (Location.Register r) hqr
          rw [locAsReg] at this
          exact Option.noConfusion this
        · exact ih h r ⟨q, hqrest, hqv, hqr⟩
    · rw [if_neg hv] at h
      rcases List.mem_cons.mp hq with hqp | hqrest
      · subst hqp; exact hv hqv
      · exact ih h r ⟨q, hqrest, hqv, hqr⟩

theorem tryLeaStep_eq_some {reg_of : Reg → Option RewriterVar} {val : Nat} {r : Reg}
    {res : Reg × Int} (h : tryLeaStep reg_of val r = some res) :
    ∃ var, reg_of r = some var ∧ var.is_constant = true
      ∧ isLargeConstantI (sub64 val var.constant_value) = false
      ∧ res = (r, sub64 val var.constant_value) := by
  unfold tryLeaStep at h
  cases hro : reg_of r with
  | none => rw [hro] at h; exact Option.noConfusion h
  | some var =>
    rw [hro] at h
    by_cases hc : var.is_constant = true
    · by_cases hl : isLargeConstantI (sub64 val var.constant_value) = true
      · simp [hc, hl] at h
      · have hl0 : isLargeConstantI (sub64 val var.constant_value) = false :=
          Bool.not_eq_true _ ▸ (Bool.eq_false_iff.mpr hl)
        simp only [hc, Bool.not_true, Bool.false_eq_true, if_false, hl0,
          Bool.false_eq_true, if_false] at h
        cases h
        exact ⟨var, rfl, hc, hl0, rfl⟩
    · simp [Bool.eq_false_iff.mpr hc] at h

theorem tryLea_eq_some {reg_of : Reg → Option RewriterVar} {val : Nat}
    {base : Reg} {off : Int} (h : tryLea reg_of val = some (base, off)) :
    isLargeConstant val = true
      ∧ ∃ var, reg_of base = some var ∧ var.is_constant = true
          ∧ isLargeConstantI (sub64 val var.constant_value) = false
          ∧ off = sub64 val var.constant_value := by
  unfold tryLea at h
  by_cases hlv : isLargeConstant val = true
  · rw [if_pos hlv] at h
    obtain ⟨r, _, hstep⟩ := List.exists_of_findSome?_eq_some h
    obtain ⟨var, hro, hc, hl, hres⟩ := tryLeaStep_eq_some hstep
    rw [Prod.mk.injEq] at hres
    obtain ⟨hb, ho⟩ := hres
    subst hb
    subst ho
    exact ⟨hlv, var, hro, hc, hl, rfl⟩
  · rw [if_neg hlv] at h
    exact Option.noConfusion h

theorem tryLea_eq_none {reg_of : Reg → Option RewriterVar} {val : Nat}
    (h : tryLea reg_of val = none) (hlv : isLargeConstant val = true) :
    ¬leaFeasible reg_of val := by
  intro ⟨r, var, hro, hc, hl⟩
  unfold tryLea at h
  rw [if_pos hlv] at h
  have := List.findSome?_eq_none_iff.mp h r (mem_allGPRegs r)
  rw [tryLeaStep, hro] at this
  simp [hc, hl] at this

/-- C6 (confirmed).  loadConstIntoReg applies exactly the first applicable
strategy: the zeroing idiom for value 0 (never a mov imm64); else a reg-reg
move from a register already holding the constant (elided when that register
is the destination itself); else, for a 64-bit value not fitting signed 32
bits, a lea off a register holding a constant within signed-32-bit reach;
else a mov imm64. -/
theorem load_const_strategy (consts : List (Nat × RewriterVar))
    (reg_of : Reg → Option RewriterVar) (val : Nat) (dst : Reg) :
    (val = 0 → loadConstIntoReg consts reg_of val dst = [.clear_reg dst])
    ∧ (val ≠ 0 → (∃ r, holdsConstInReg consts val r) →
        (holdsConstInReg consts val dst
            ∧ loadConstIntoReg consts reg_of val dst = [])
        ∨ (∃ src, src ≠ dst ∧ holdsConstInReg consts val src
            ∧ loadConstIntoReg consts reg_of val dst = [.mov_rr src dst]))
    ∧ (val ≠ 0 → (∀ r, ¬holdsConstInReg consts val r) →
        isLargeConstant val = true → leaFeasible reg_of val →
        ∃ base var, reg_of base = some var ∧ var.is_constant = true
          ∧ isLargeConstantI (sub64 val var.constant_value) = false
          ∧ loadConstIntoReg consts reg_of val dst
              = [.lea base (sub64 val var.constant_value) dst])
    ∧ (val ≠ 0 → (∀ r, ¬holdsConstInReg consts val r) →
        (isLargeConstant val = false ∨ ¬leaFeasible reg_of val) →
        loadConstIntoReg consts reg_of val dst = [.mov_imm val dst]) := by
  refine ⟨?_, ?_, ?_, ?_⟩
  · intro hz
    simp [loadConstIntoReg, hz]
  · intro hnz hex
    cases hfc : findConst consts val with
    | none =>
      obtain ⟨r, hr⟩ := hex
      exact absurd hr (findConst_eq_none hfc r)
    | some src =>
      have hsrc := findConst_eq_some hfc
      by_cases hd : src = dst
      · left
        refine ⟨hd ▸ hsrc, ?_⟩
        simp [loadConstIntoReg, hnz, hfc, hd]
      · right
        refine ⟨src, hd, hsrc, ?_⟩
        simp [loadConstIntoReg, hnz, hfc, hd]
  · intro hnz hnone hlv hfeas
    have hfc : findConst consts val = none := by
      cases hfc : findConst consts val with
      | none => rfl
      | some r => exact absurd (findConst_eq_some hfc) (hnone r)
    cases htl : tryLea reg_of val with
    | none => exact absurd hfeas (tryLea_eq_none htl hlv)
    | some pr =>
      obtain ⟨base, off⟩ := pr
      obtain ⟨_, var, hro, hc, hl, ho⟩ := tryLea_eq_some htl
      refine ⟨base, var, hro, hc, hl, ?_⟩
      simp [loadConstIntoReg, hnz, hfc, htl, ho]
  · intro hnz hnone hno
    have hfc : findConst consts val = none := by
      cases hfc : findConst consts val with
      | none => rfl
      | some r => exact absurd (findConst_eq_some hfc) (hnone r)
    have htl : tryLea reg_of val = none := by
      cases hno with
      | inl hsmall => simp [tryLea, hsmall]
      | inr hnf =>
        cases htl : tryLea reg_of val with
        | none => rfl
        | some pr =>
          obtain ⟨base, off⟩ := pr
          obtain ⟨hlv, var, hro, hc, hl, _⟩ := tryLea_eq_some htl
          exact absurd ⟨base, var, hro, hc, hl⟩ hnf
    simp [loadConstIntoReg, hnz, hfc, htl]

theorem load_const_strategy_witness :
    loadConstIntoReg [] (fun _ => none) 0 .RAX = [.clear_reg .RAX]
    ∧ loadConstIntoReg [] (fun _ => none) (2 ^ 40) .RAX = [.mov_imm (2 ^ 40) .RAX] :=
  ⟨(load_const_strategy [] (fun _ => none) 0 .RAX).1 rfl,
    (load_const_strategy [] (fun _ => none) (2 ^ 40) .RAX).2.2.2 (by decide)
      (fun r ⟨p, hp, _⟩ => absurd hp (List.not_mem_nil p))
      (Or.inr (fun ⟨r, var, hro, _, _⟩ => Option.noConfusion hro))⟩

/-! ### C3: GP-register spilling, Rewriter::spillRegister (rewriter.cpp:1973-2011) -/

/-- Rewriter::allocScratch (rewriter.cpp:1763-1775): the first free 8-byte
scratch slot, scanning offsets 0, 8, 16, ... below `scratch_size`; `none`
models the failed = true path. -/
def allocScratch (scratch_size : Nat) (occupied : Location → Bool) : Option Int :=
  ((List.range ((scratch_size + 7) / 8)).map (fun i => ((8 * i : Nat) : Int))).find?
    (fun off => !occupied (.Scratch off))

/-- What a GP spillRegister call does: step 1 drops the register with no
code, step 2 moves into a callee-save register, step 3 stores to scratch;
`spillFailed` is the scratch-exhaustion failed = true path. -/
inductive SpillAction
  | dropOnly
  | movToCalleeSave (src dst : Reg)
  | storeToScratch (src : Reg) (off : Int)
  | spillFailed
deriving DecidableEq, Repr

/-- Discriminator used to state that a result is not a move to callee-save. -/
def SpillAction.isMovToCalleeSave : SpillAction → Bool
  | .movToCalleeSave _ _ => true
  | _ => false

/-- Rewriter::spillRegister for GP registers (rewriter.cpp:1973-2011).
`occupied l` models `vars_by_location.count(l) != 0`; `allocatable` is the
slot's allocatable register set (`allocatable_regs`), whose intersection with
the callee-save set the step-2 loop walks; `var` is the occupant
`vars_by_location[reg]`. -/
def spillRegister (allocatable : List Reg) (occupied : Location → Bool)
    (scratch_size : Nat) (reg : Reg) (preserve : Location) (var : RewriterVar) :
    SpillAction :=
  if 1 < var.locations.length || var.is_constant || var.isScratchAllocation then
    .dropOnly
  else
    match (allocatable.filter Reg.isCalleeSave).find?
        (fun new_reg => !occupied (.Register new_reg)
          && !(Location.Register new_reg == preserve)) with
    | some new_reg => .movToCalleeSave reg new_reg
    | none =>
      match allocScratch scratch_size occupied with
      | some off => .storeToScratch reg off
      | none => .spillFailed

/-- A spill victim that claim C3 step 1 lets the rewriter drop without code:
another location, a constant, or an owned scratch allocation. -/
def dropWithoutCode (var : RewriterVar) : Prop :=
  1 < var.locations.length ∨ var.is_constant = true ∨ var.isScratchAllocation = true

/-- The occupant var for the C3 counterexample: a non-constant var whose only
location is the register being spilled. -/
def c3Var : RewriterVar :=
  { locations := [.Register .RAX] }

/-- C3 (counterexample).  With allocatable set {RBX}, nothing occupied, and
RBX as the preserve register, the occupant of RAX must be spilled although a
free allocatable callee-save register (RBX) exists and step 1 does not apply:
the code skips the preserve register and stores to scratch instead of moving
to RBX, so step (2) as claimed does not describe the code. -/
theorem spill_calleesave_preserve_counterexample :
    spillRegister [.RBX] (fun _ => false) 64 .RAX (.Register .RBX) c3Var
      = .storeToScratch .RAX 0
    ∧ ¬dropWithoutCode c3Var
    ∧ (∃ r, r ∈ ([.RBX] : List Reg) ∧ r.isCalleeSave = true
        ∧ (fun _ => false : Location → Bool) (.Register r) = false)
    ∧ (spillRegister [.RBX] (fun _ => false) 64 .RAX (.Register .RBX)
        c3Var).isMovToCalleeSave = false := by
  refine ⟨by decide, ?_, ⟨.RBX, by decide, by decide, rfl⟩, by decide⟩
  intro h
  rcases h with h | h | h
  · simp [c3Var] at h
  · simp [c3Var] at h
  · simp [c3Var, RewriterVar.isScratchAllocation] at h

/-- C3 (amended).  spillRegister on a GP register follows the three-step
policy in order: (1) if the occupant has another location, is a constant, or
owns a scratch allocation, the register is just dropped with no spill code;
(2) otherwise, if a free allocatable callee-save register other than the
preserve location exists, the value is moved into such a register; (3)
otherwise, when a free scratch slot exists, that slot is allocated and a
spill store is emitted. -/
theorem spill_register_policy (allocatable : List Reg) (occupied : Location → Bool)
    (scratch_size : Nat) (reg : Reg) (preserve : Location) (var : RewriterVar) :
    (dropWithoutCode var →
      spillRegister allocatable occupied scratch_size reg preserve var = .dropOnly)
    ∧ (¬dropWithoutCode var →
      (∃ r ∈ allocatable, r.isCalleeSave = true ∧ occupied (.Register r) = false
        ∧ Location.Register r ≠ preserve) →
      ∃ dst, spillRegister allocatable occupied scratch_size reg preserve var
          = .movToCalleeSave reg dst
        ∧ dst ∈ allocatable ∧ dst.isCalleeSave = true
        ∧ occupied (.Register dst) = false ∧ Location.Register dst ≠ preserve)
    ∧ (¬dropWithoutCode var →
      (∀ r ∈ allocatable, r.isCalleeSave = true → occupied (.Register r) = false →
        Location.Register r = preserve) →
      ∀ off, allocScratch scratch_size occupied = some off →
        spillRegister allocatable occupied scratch_size reg preserve var
          = .storeToScratch reg off) := by
  have hstep1 : dropWithoutCode var ↔
      (1 < var.locations.length || var.is_constant || var.isScratchAllocation) = true := by
    simp [dropWithoutCode, Bool.or_eq_true, decide_eq_true_eq, or_assoc]
  refine ⟨?_, ?_, ?_⟩
  · intro h
    rw [spillRegister, if_pos (hstep1.mp h)]
  · intro hnot hex
    have hcond : ¬(1 < var.locations.length || var.is_constant
        || var.isScratchAllocation) = true := fun hc => hnot (hstep1.mpr hc)
    obtain ⟨r0, hr0mem, hr0cs, hr0free, hr0ne⟩ := hex
    have hr0filter : r0 ∈ allocatable.filter Reg.isCalleeSave :=
      List.mem_filter.mpr ⟨hr0mem, hr0cs⟩
    have hpred : (fun new_reg => !occupied (.Register new_reg)
        && !(Location.Register new_reg == preserve)) r0 = true := by
      simp [hr0free, hr0ne]
    have hsome : ((allocatable.filter Reg.isCalleeSave).find?
        (fun new_reg => !occupied (.Register new_reg)
          && !(Location.Register new_reg == preserve))).isSome := by
      rw [List.find?_isSome]
      exact ⟨r0, hr0filter, hpred⟩
    cases hfind : (allocatable.filter Reg.isCalleeSave).find?
        (fun new_reg => !occupied (.Register new_reg)
          && !(Location.Register new_reg == preserve)) with
    | none => rw [hfind] at hsome; exact absurd hsome (by simp)
    | some dst =>
      have hdstmem := List.mem_of_find?_eq_some hfind
      have hdstpred := List.find?_some hfind
      have hdstfree : occupied (.Register dst) = false := by
        cases hocc : occupied (.Register dst)
        · rfl
        · rw [hocc] at hdstpred; simp at hdstpred
      have hdstne : Location.Register dst ≠ preserve := by
        intro he
        rw [he] at hdstpred
        simp [hdstfree] at hdstpred
      refine ⟨dst, ?_, (List.mem_filter.mp hdstmem).1,
        (List.mem_filter.mp hdstmem).2, hdstfree, hdstne⟩
      rw [spillRegister, if_neg hcond, hfind]
  · intro hnot hall off hscr
    have hcond : ¬(1 < var.locations.length || var.is_constant
        || var.isScratchAllocation) = true := fun hc => hnot (hstep1.mpr hc)
    have hfind : (allocatable.filter Reg.isCalleeSave).find?
        (fun new_reg => !occupied (.Register new_reg)
          && !(Location.Register new_reg == preserve)) = none := by
      rw [List.find?_eq_none]
      intro r hr
      obtain ⟨hrmem, hrcs⟩ := List.mem_filter.mp hr
      cases hocc : occupied (.Register r) with
      | true => simp [hocc]
      | false =>
        have := hall r hrmem hrcs hocc
        simp [this]
    rw [spillRegister, if_neg hcond, hfind, hscr]

theorem spill_register_policy_witness :
    ∃ dst, spillRegister [.RBX] (fun _ => false) 64 .RAX .AnyReg c3Var
        = .movToCalleeSave .RAX dst
      ∧ dst ∈ ([.RBX] : List Reg) ∧ dst.isCalleeSave = true
      ∧ (fun _ => false : Location → Bool) (.Register dst) = false
      ∧ Location.Register dst ≠ .AnyReg :=
  (spill_register_policy [.RBX] (fun _ => false) 64 .RAX .AnyReg c3Var).2.1
    (fun h => by
      rcases h with h | h | h
      · simp [c3Var] at h
      · simp [c3Var] at h
      · simp [c3Var, RewriterVar.isScratchAllocation] at h)
    ⟨.RBX, by decide, by decide, rfl, by decide⟩

/-! ### C4: AnyReg allocation, Rewriter::allocReg (rewriter.cpp:2032-2083) -/

/-- Result of the AnyReg branch of allocReg: an unoccupied register returned
directly, a register freed by spilling its occupant, or the `assert(found)`
failure when no candidate exists. -/
inductive AllocOutcome
  | free (r : Reg)
  | spill (r : Reg)
  | assertFail
deriving DecidableEq, Repr

/-- `var->uses[var->next_use]`, the action index of a var's next use. -/
def nextUseVal (v : RewriterVar) : Nat := v.uses.getD v.next_use 0

/-- A register/occupant pair the AnyReg loop is willing to spill: not an
entry-arg pinned at this register while guarding is unfinished
(rewriter.cpp:2047-2049), and not a dead var still occupying a location
(rewriter.cpp:2051-2056). -/
def spillCandidate (done_guarding : Bool) (r : Reg) (v : RewriterVar) : Prop :=
  ¬(done_guarding = false ∧ v.is_arg = true ∧ v.arg_loc = Location.Register r)
    ∧ v.next_use ≠ v.uses.length

/-- The loop of the AnyReg branch of Rewriter::allocReg
(rewriter.cpp:2035-2069), with `best` / `bestReg` as the loop accumulator
(initially -1 / nothing); `occ` models vars_by_location restricted to GP
registers. -/
def allocRegAnyGo (occ : Reg → Option RewriterVar) (otherThan : Location)
    (done_guarding : Bool) : List Reg → Int → Option Reg → AllocOutcome
  | [], _, bestReg =>
    match bestReg with
    | some rb => .spill rb
    | none => .assertFail
  | reg :: rest, best, bestReg =>
    if Location.Register reg = otherThan then
      allocRegAnyGo occ otherThan done_guarding rest best bestReg
    else
      match occ reg with
      | none => .free reg
      | some var =>
        if !done_guarding && var.is_arg && (var.arg_loc == Location.Register reg) then
          allocRegAnyGo occ otherThan done_guarding rest best bestReg
        else if var.next_use == var.uses.length then
          allocRegAnyGo occ otherThan done_guarding rest best bestReg
        else if best < (nextUseVal var : Int) then
          allocRegAnyGo occ otherThan done_guarding rest (nextUseVal var) (some reg)
        else
          allocRegAnyGo occ otherThan done_guarding rest best bestReg

/-- Rewriter::allocReg with an AnyReg destination (rewriter.cpp:2035-2069):
run the loop over the valid registers with best = -1 and no best register. -/
def allocRegAny (valid : List Reg) (occ : Reg → Option RewriterVar)
    (otherThan : Location) (done_guarding : Bool) : AllocOutcome :=
  allocRegAnyGo occ otherThan done_guarding valid (-1) none

theorem allocRegAnyGo_cons_other {occ : Reg → Option RewriterVar} {otherThan : Location}
    {done_guarding : Bool} {a : Reg} {t : List Reg} {best : Int} {bestReg : Option Reg}
    (hOT : Location.Register a = otherThan) :
    allocRegAnyGo occ otherThan done_guarding (a :: t) best bestReg
      = allocRegAnyGo occ otherThan done_guarding t best bestReg := by
  rw [allocRegAnyGo, if_pos hOT]

theorem allocRegAnyGo_cons_free {occ : Reg → Option RewriterVar} {otherThan : Location}
    {done_guarding : Bool} {a : Reg} {t : List Reg} {best : Int} {bestReg : Option Reg}
    (hOT : ¬Location.Register a = otherThan) (hocca : occ a = none) :
    allocRegAnyGo occ otherThan done_guarding (a :: t) best bestReg = .free a := by
  rw [allocRegAnyGo, if_neg hOT, hocca]

theorem allocRegAnyGo_cons_occupied {occ : Reg → Option RewriterVar} {otherThan : Location}
    {done_guarding : Bool} {a : Reg} {t : List Reg} {best : Int} {bestReg : Option Reg}
    {vara : RewriterVar}
    (hOT : ¬Location.Register a = otherThan) (hocca : occ a = some vara) :
    allocRegAnyGo occ otherThan done_guarding (a :: t) best bestReg
      = if !done_guarding && vara.is_arg && (vara.arg_loc == Location.Register a) then
          allocRegAnyGo occ otherThan done_guarding t best bestReg
        else if vara.next_use == vara.uses.length then
          allocRegAnyGo occ otherThan done_guarding t best bestReg
        else if best < (nextUseVal vara : Int) then
          allocRegAnyGo occ otherThan done_guarding t (nextUseVal vara) (some a)
        else
          allocRegAnyGo occ otherThan done_guarding t best bestReg := by
  rw [allocRegAnyGo, if_neg hOT, hocca]

theorem not_cand_of_pinned {done_guarding : Bool} {r : Reg} {v : RewriterVar}
    (hp : (!done_guarding && v.is_arg && (v.arg_loc == Location.Register r)) = true) :
    ¬spillCandidate done_guarding r v := by
  intro ⟨h1, _⟩
  simp only [Bool.and_eq_true, Bool.not_eq_true', beq_iff_eq] at hp
  exact h1 ⟨hp.1.1, hp.1.2, hp.2⟩

theorem not_cand_of_dead {done_guarding : Bool} {r : Reg} {v : RewriterVar}
    (hd : (v.next_use == v.uses.length) = true) :
    ¬spillCandidate done_guarding r v := by
  intro ⟨_, h2⟩
  exact h2 (by simpa using hd)

theorem cand_of_not_skipped {done_guarding : Bool} {r : Reg} {v : RewriterVar}
    (hp : ¬(!done_guarding && v.is_arg && (v.arg_loc == Location.Register r)) = true)
    (hd : ¬(v.next_use == v.uses.length) = true) :
    spillCandidate done_guarding r v := by
  constructor
  · intro ⟨h1, h2, h3⟩
    exact hp (by simp [h1, h2, h3])
  · intro he
    exact hd (by simp [he])

theorem allocRegAnyGo_nil_some {occ : Reg → Option RewriterVar} {otherThan : Location}
    {done_guarding : Bool} {best : Int} {rb : Reg} :
    allocRegAnyGo occ otherThan done_guarding [] best (some rb) = .spill rb := by
  simp [allocRegAnyGo]

theorem allocRegAnyGo_nil_none {occ : Reg → Option RewriterVar} {otherThan : Location}
    {done_guarding : Bool} {best : Int} :
    allocRegAnyGo occ otherThan done_guarding [] best none = .assertFail := by
  simp [allocRegAnyGo]

theorem allocRegAnyGo_free (occ : Reg → Option RewriterVar) (otherThan : Location)
    (done_guarding : Bool) :
    ∀ (l : List Reg) (best : Int) (bestReg : Option Reg),
      (∃ r ∈ l, Location.Register r ≠ otherThan ∧ occ r = none) →
      ∃ r, allocRegAnyGo occ otherThan done_guarding l best bestReg = .free r
        ∧ r ∈ l ∧ occ r = none ∧ Location.Register r ≠ otherThan := by
  intro l
  induction l with
  | nil =>
    intro best bestReg ⟨r, hr, _⟩
    exact absurd hr (List.not_mem_nil r)
  | cons a t ih =>
    intro best bestReg ⟨r, hrmem, hrne, hrfree⟩
    by_cases hOT : Location.Register a = otherThan
    · have hrt : r ∈ t := by
        rcases List.mem_cons.mp hrmem with h | h
        · subst h; exact absurd hOT hrne
        · exact h
      obtain ⟨r0, hgo, hr0t, hr0free, hr0ne⟩ := ih best bestReg ⟨r, hrt, hrne, hrfree⟩
      exact ⟨r0, by rw [allocRegAnyGo_cons_other hOT]; exact hgo,
        List.mem_cons_of_mem a hr0t, hr0free, hr0ne⟩
    · cases hocca : occ a with
      | none =>
        exact ⟨a, allocRegAnyGo_cons_free hOT hocca, List.mem_cons_self a t, hocca, hOT⟩
      | some vara =>
        have hrt : r ∈ t := by
          rcases List.mem_cons.mp hrmem with h | h
          · subst h; rw [hocca] at hrfree; exact Option.noConfusion hrfree
          · exact h
        have hrec : ∀ (b : Int) (br : Option Reg),
            ∃ r0, allocRegAnyGo occ otherThan done_guarding t b br = .free r0
              ∧ r0 ∈ t ∧ occ r0 = none ∧ Location.Register r0 ≠ otherThan :=
          fun b br => ih b br ⟨r, hrt, hrne, hrfree⟩
        by_cases hp : (!done_guarding && vara.is_arg
            && (vara.arg_loc == Location.Register a)) = true
        · obtain ⟨r0, hgo, h1, h2, h3⟩ := hrec best bestReg
          exact ⟨r0,
            by rw [allocRegAnyGo_cons_occupied hOT hocca, if_pos hp]; exact hgo,
            List.mem_cons_of_mem a h1, h2, h3⟩
        · by_cases hd : (vara.next_use == vara.uses.length) = true
          · obtain ⟨r0, hgo, h1, h2, h3⟩ := hrec best bestReg
            exact ⟨r0,
              by rw [allocRegAnyGo_cons_occupied hOT hocca, if_neg hp, if_pos hd]
                 exact hgo,
              List.mem_cons_of_mem a h1, h2, h3⟩
          · by_cases hu : best < (nextUseVal vara : Int)
            · obtain ⟨r0, hgo, h1, h2, h3⟩ := hrec (nextUseVal vara) (some a)
              exact ⟨r0,
                by rw [allocRegAnyGo_cons_occupied hOT hocca, if_neg hp, if_neg hd,
                     if_pos hu]
                   exact hgo,
                List.mem_cons_of_mem a h1, h2, h3⟩
            · obtain ⟨r0, hgo, h1, h2, h3⟩ := hrec best bestReg
              exact ⟨r0,
                by rw [allocRegAnyGo_cons_occupied hOT hocca, if_neg hp, if_neg hd,
                     if_neg hu]
                   exact hgo,
                List.mem_cons_of_mem a h1, h2, h3⟩

theorem allocRegAnyGo_spill_char (occ : Reg → Option RewriterVar) (otherThan : Location)
    (done_guarding : Bool) :
    ∀ (l : List Reg) (best : Int) (bestReg : Option Reg) (r : Reg),
      (∀ rb, bestReg = some rb →
        ∃ vb, occ rb = some vb ∧ spillCandidate done_guarding rb vb
          ∧ best = (nextUseVal vb : Int)) →
      allocRegAnyGo occ otherThan done_guarding l best bestReg = .spill r →
      ∃ var, occ r = some var ∧ spillCandidate done_guarding r var
        ∧ best ≤ (nextUseVal var : Int)
        ∧ ∀ r2 ∈ l, Location.Register r2 ≠ otherThan →
            ∀ var2, occ r2 = some var2 → spillCandidate done_guarding r2 var2 →
              (nextUseVal var2 : Int) ≤ (nextUseVal var : Int) := by
  intro l
  induction l with
  | nil =>
    intro best bestReg r hacc hgo
    cases bestReg with
    | none =>
      rw [allocRegAnyGo_nil_none] at hgo
      exact absurd hgo (by simp)
    | some rb =>
      rw [allocRegAnyGo_nil_some] at hgo
      have hr : rb = r := by injection hgo
      subst hr
      obtain ⟨vb, hvb, hcand, hbest⟩ := hacc rb rfl
      exact ⟨vb, hvb, hcand, le_of_eq hbest,
        fun r2 hr2 => absurd hr2 (List.not_mem_nil r2)⟩
  | cons a t ih =>
    intro best bestReg r hacc hgo
    by_cases hOT : Location.Register a = otherThan
    · rw [allocRegAnyGo_cons_other hOT] at hgo
      obtain ⟨var, h1, h2, h3, h4⟩ := ih best bestReg r hacc hgo
      refine ⟨var, h1, h2, h3, ?_⟩
      intro r2 hr2 hne var2 hocc2 hcand2
      rcases List.mem_cons.mp hr2 with he | ht
      · subst he; exact absurd hOT hne
      · exact h4 r2 ht hne var2 hocc2 hcand2
    · cases hocca : occ a with
      | none =>
        rw [allocRegAnyGo_cons_free hOT hocca] at hgo
        exact absurd hgo (by simp)
      | some vara =>
        rw [allocRegAnyGo_cons_occupied hOT hocca] at hgo
        by_cases hp : (!done_guarding && vara.is_arg
            && (vara.arg_loc == Location.Register a)) = true
        · rw [if_pos hp] at hgo
          obtain ⟨var, h1, h2, h3, h4⟩ := ih best bestReg r hacc hgo
          refine ⟨var, h1, h2, h3, ?_⟩
          intro r2 hr2 hne var2 hocc2 hcand2
          rcases List.mem_cons.mp hr2 with he | ht
          · subst he
            rw [hocca] at hocc2
            cases hocc2
            exact absurd hcand2 (not_cand_of_pinned hp)
          · exact h4 r2 ht hne var2 hocc2 hcand2
        · by_cases hd : (vara.next_use == vara.uses.length) = true
          · rw [if_neg hp, if_pos hd] at hgo
            obtain ⟨var, h1, h2, h3, h4⟩ := ih best bestReg r hacc hgo
            refine ⟨var, h1, h2, h3, ?_⟩
            intro r2 hr2 hne var2 hocc2 hcand2
            rcases List.mem_cons.mp hr2 with he | ht
            · subst he
              rw [hocca] at hocc2
              cases hocc2
              exact absurd hcand2 (not_cand_of_dead hd)
            · exact h4 r2 ht hne var2 hocc2 hcand2
          · have hcanda : spillCandidate done_guarding a vara :=
              cand_of_not_skipped hp hd
            by_cases hu : best < (nextUseVal vara : Int)
            · rw [if_neg hp, if_neg hd, if_pos hu] at hgo
              have hacc2 : ∀ rb, (some a : Option Reg) = some rb →
                  ∃ vb, occ rb = some vb ∧ spillCandidate done_guarding rb vb
                    ∧ ((nextUseVal vara : Nat) : Int) = (nextUseVal vb : Int) := by
                intro rb he
                cases he
                exact ⟨vara, hocca, hcanda, rfl⟩
              obtain ⟨var, h1, h2, h3, h4⟩ := ih (nextUseVal vara) (some a) r hacc2 hgo
              refine ⟨var, h1, h2, le_trans (le_of_lt hu) h3, ?_⟩
              intro r2 hr2 hne var2 hocc2 hcand2
              rcases List.mem_cons.mp hr2 with he | ht
              · subst he
                rw [hocca] at hocc2
                cases hocc2
                exact h3
              · exact h4 r2 ht hne var2 hocc2 hcand2
            · rw [if_neg hp, if_neg hd, if_neg hu] at hgo
              obtain ⟨var, h1, h2, h3, h4⟩ := ih best bestReg r hacc hgo
              refine ⟨var, h1, h2, h3, ?_⟩
              intro r2 hr2 hne var2 hocc2 hcand2
              rcases List.mem_cons.mp hr2 with he | ht
              · subst he
                rw [hocca] at hocc2
                cases hocc2
                exact le_trans (not_lt.mp hu) h3
              · exact h4 r2 ht hne var2 hocc2 hcand2

theorem allocRegAnyGo_spills (occ : Reg → Option RewriterVar) (otherThan : Location)
    (done_guarding : Bool) :
    ∀ (l : List Reg) (best : Int) (bestReg : Option Reg),
      (bestReg = none → best = -1) →
      (∀ r ∈ l, Location.Register r ≠ otherThan → occ r ≠ none) →
      (bestReg.isSome = true ∨ ∃ r ∈ l, Location.Register r ≠ otherThan
        ∧ ∃ var, occ r = some var ∧ spillCandidate done_guarding r var) →
      ∃ r, allocRegAnyGo occ otherThan done_guarding l best bestReg = .spill r := by
  intro l
  induction l with
  | nil =>
    intro best bestReg hinit hnofree hcand
    cases bestReg with
    | some rb => exact ⟨rb, allocRegAnyGo_nil_some⟩
    | none =>
      rcases hcand with h | ⟨r, hr, _⟩
      · exact absurd h (by simp)
      · exact absurd hr (List.not_mem_nil r)
  | cons a t ih =>
    intro best bestReg hinit hnofree hcand
    by_cases hOT : Location.Register a = otherThan
    · have hcand2 : bestReg.isSome = true ∨ ∃ r ∈ t, Location.Register r ≠ otherThan
          ∧ ∃ var, occ r = some var ∧ spillCandidate done_guarding r var := by
        rcases hcand with h | ⟨r, hrmem, hrne, hvar⟩
        · exact Or.inl h
        · refine Or.inr ⟨r, ?_, hrne, hvar⟩
          rcases List.mem_cons.mp hrmem with he | ht
          · subst he; exact absurd hOT hrne
          · exact ht
      obtain ⟨r0, hgo⟩ := ih best bestReg hinit
        (fun r hr hne => hnofree r (List.mem_cons_of_mem a hr) hne) hcand2
      exact ⟨r0, by rw [allocRegAnyGo_cons_other hOT]; exact hgo⟩
    · cases hocca : occ a with
      | none => exact absurd hocca (hnofree a (List.mem_cons_self a t) hOT)
      | some vara =>
        have hnofree2 : ∀ r ∈ t, Location.Register r ≠ otherThan → occ r ≠ none :=
          fun r hr hne => hnofree r (List.mem_cons_of_mem a hr) hne
        by_cases hp : (!done_guarding && vara.is_arg
            && (vara.arg_loc == Location.Register a)) = true
        · have hcand2 : bestReg.isSome = true ∨ ∃ r ∈ t, Location.Register r ≠ otherThan
              ∧ ∃ var, occ r = some var ∧ spillCandidate done_guarding r var := by
            rcases hcand with h | ⟨r, hrmem, hrne, var, hvar, hc⟩
            · exact Or.inl h
            · rcases List.mem_cons.mp hrmem with he | ht
              · subst he
                rw [hocca] at hvar
                cases hvar
                exact absurd hc (not_cand_of_pinned hp)
              · exact Or.inr ⟨r, ht, hrne, var, hvar, hc⟩
          obtain ⟨r0, hgo⟩ := ih best bestReg hinit hnofree2 hcand2
          exact ⟨r0,
            by rw [allocRegAnyGo_cons_occupied hOT hocca, if_pos hp]; exact hgo⟩
        · by_cases hd : (vara.next_use == vara.uses.length) = true
          · have hcand2 : bestReg.isSome = true ∨ ∃ r ∈ t, Location.Register r ≠ otherThan
                ∧ ∃ var, occ r = some var ∧ spillCandidate done_guarding r var := by
              rcases hcand with h | ⟨r, hrmem, hrne, var, hvar, hc⟩
              · exact Or.inl h
              · rcases List.mem_cons.mp hrmem with he | ht
                · subst he
                  rw [hocca] at hvar
                  cases hvar
                  exact absurd hc (not_cand_of_dead hd)
                · exact Or.inr ⟨r, ht, hrne, var, hvar, hc⟩
            obtain ⟨r0, hgo⟩ := ih best bestReg hinit hnofree2 hcand2
            exact ⟨r0,
              by rw [allocRegAnyGo_cons_occupied hOT hocca, if_neg hp, if_pos hd]
                 exact hgo⟩
          · by_cases hu : best < (nextUseVal vara : Int)
            · obtain ⟨r0, hgo⟩ := ih (nextUseVal vara) (some a)
                (fun he => Option.noConfusion he) hnofree2 (Or.inl rfl)
              exact ⟨r0,
                by rw [allocRegAnyGo_cons_occupied hOT hocca, if_neg hp, if_neg hd,
                     if_pos hu]
                   exact hgo⟩
            · cases hbr : bestReg with
              | none =>
                exfalso
                have hb : best = -1 := hinit hbr
                apply hu
                rw [hb]
                exact lt_of_lt_of_le (by decide) (Int.ofNat_nonneg (nextUseVal vara))
              | some rb =>
                subst hbr
                obtain ⟨r0, hgo⟩ := ih best (some rb)
                  (fun he => Option.noConfusion he) hnofree2 (Or.inl rfl)
                exact ⟨r0,
                  by rw [allocRegAnyGo_cons_occupied hOT hocca, if_neg hp, if_neg hd,
                       if_neg hu]
                     exact hgo⟩
/-- C4 (confirmed).  allocReg with an AnyReg hint: when a free allocatable
register (other than the exclusion) exists it returns a free one; otherwise,
when some spillable occupant exists, it spills and returns a register whose
occupant is a spill candidate with the farthest next use (maximal
uses[next_use]) among all spill candidates, and while guarding is unfinished
the chosen register is never one holding an entry-arg var pinned at its
arg location. -/
theorem alloc_reg_anyreg_policy (valid : List Reg) (occ : Reg → Option RewriterVar)
    (otherThan : Location) (done_guarding : Bool) :
    ((∃ r ∈ valid, Location.Register r ≠ otherThan ∧ occ r = none) →
      ∃ r, allocRegAny valid occ otherThan done_guarding = .free r
        ∧ r ∈ valid ∧ occ r = none ∧ Location.Register r ≠ otherThan)
    ∧ ((∀ r ∈ valid, Location.Register r ≠ otherThan → occ r ≠ none) →
      (∃ r ∈ valid, Location.Register r ≠ otherThan
        ∧ ∃ var, occ r = some var ∧ spillCandidate done_guarding r var) →
      ∃ r var, allocRegAny valid occ otherThan done_guarding = .spill r
        ∧ occ r = some var ∧ spillCandidate done_guarding r var
        ∧ (done_guarding = false →
            ¬(var.is_arg = true ∧ var.arg_loc = Location.Register r))
        ∧ ∀ r2 ∈ valid, Location.Register r2 ≠ otherThan →
            ∀ var2, occ r2 = some var2 → spillCandidate done_guarding r2 var2 →
              nextUseVal var2 ≤ nextUseVal var) := by
  constructor
  · intro hex
    exact allocRegAnyGo_free occ otherThan done_guarding valid (-1) none hex
  · intro hnofree hcand
    obtain ⟨r, hgo⟩ := allocRegAnyGo_spills occ otherThan done_guarding valid (-1) none
      (fun _ => rfl) hnofree (Or.inr hcand)
    obtain ⟨var, h1, h2, _, h4⟩ := allocRegAnyGo_spill_char occ otherThan done_guarding
      valid (-1) none r (fun rb he => Option.noConfusion he) hgo
    refine ⟨r, var, hgo, h1, h2, ?_, ?_⟩
    · intro hdg ⟨ha, hl⟩
      exact h2.1 ⟨hdg, ha, hl⟩
    · intro r2 hr2 hne var2 hocc2 hcand2
      exact_mod_cast h4 r2 hr2 hne var2 hocc2 hcand2

/-- Occupancy map for the C4 witness: RAX holds a var next used at action 5,
RCX one next used at action 9, nothing else is occupied. -/
def c4Occ : Reg → Option RewriterVar
  | .RAX => some { uses := [5], next_use := 0 }
  | .RCX => some { uses := [9], next_use := 0 }
  | _ => none

theorem alloc_reg_anyreg_policy_witness :
    ∃ r var, allocRegAny [.RAX, .RCX] c4Occ .AnyReg true = .spill r
      ∧ c4Occ r = some var ∧ spillCandidate true r var
      ∧ (true = false → ¬(var.is_arg = true ∧ var.arg_loc = Location.Register r))
      ∧ ∀ r2 ∈ ([.RAX, .RCX] : List Reg), Location.Register r2 ≠ .AnyReg →
          ∀ var2, c4Occ r2 = some var2 → spillCandidate true r2 var2 →
            nextUseVal var2 ≤ nextUseVal var :=
  (alloc_reg_anyreg_policy [.RAX, .RCX] c4Occ .AnyReg true).2
    (by
      intro r hr hne
      rcases List.mem_cons.mp hr with he | hr2
      · subst he; simp [c4Occ]
      · rcases List.mem_cons.mp hr2 with he | hr3
        · subst he; simp [c4Occ]
        · exact absurd hr3 (List.not_mem_nil r))
    ⟨.RAX, by decide, by decide,
      { uses := [5], next_use := 0 }, rfl,
      fun ⟨h1, _, _⟩ => Bool.noConfusion h1, by decide⟩

/-! ### C2: decref-info publication, Rewriter::getDecrefLocations
(rewriter.cpp:1227-1286) -/

/-- RewriterVar::getScratchLocation (rewriter.cpp:1390-1393): the scratch
location of a var's scratch allocation (slot index times 8 bytes). -/
def getScratchLocation (v : RewriterVar) (additional_offset : Int) : Location :=
  .Scratch (v.scratch_allocation.1 * 8 + additional_offset)

/-- Rewriter::indirectFor (rewriter.cpp:1964-1971), reduced to the RSP offset
it computes (the base register is always RSP; only Scratch and Stack reach
it, the fallback value is never consulted). -/
def indirectForOffset (scratch_rsp_offset : Int) : Location → Int
  | .Scratch off => scratch_rsp_offset + off
  | .Stack off => off
  | _ => 0

/-- The per-var location scan of Rewriter::getDecrefLocations
(rewriter.cpp:1232-1248), walking the var's locations in order: a Scratch
location is recorded converted to a stack offset from SP, a caller-clobbered
register is skipped, a non-caller-clobbered register is recorded as itself,
and any other location kind hits RELEASE_ASSERT(0, "not implemented"),
modelled as `.error ()`.  `.ok none` is the found_location = false case. -/
def findDecrefLocation (scratch_rsp_offset : Int) :
    List Location → Except Unit (Option Location)
  | [] => .ok none
  | .Scratch off :: _ => .ok (some (.Stack (scratch_rsp_offset + off)))
  | .Register r :: rest =>
    if (Location.Register r).isClobberedByCall then
      findDecrefLocation scratch_rsp_offset rest
    else .ok (some (.Register r))
  | _ :: _ => .error ()

/-- The loop guard of Rewriter::getDecrefLocations (rewriter.cpp:1230):
`var.locations.size() && var.needsDecref(current_action_idx)`. -/
def qualifiesForDecref (idx : Nat) (v : RewriterVar) : Bool :=
  v.locations.length != 0 && v.needsDecref idx

/-- The vars loop of Rewriter::getDecrefLocations (rewriter.cpp:1229-1254):
collect one entry per qualifying var, and report failed = true when some
qualifying var yields no location. -/
def getDecrefLocationsVars (sro : Int) (idx : Nat) :
    List RewriterVar → Except Unit (List Location × Bool)
  | [] => .ok ([], false)
  | v :: rest =>
    if qualifiesForDecref idx v then
      match findDecrefLocation sro v.locations with
      | .error e => .error e
      | .ok (some l) =>
        match getDecrefLocationsVars sro idx rest with
        | .error e => .error e
        | .ok (ls, f) => .ok (l :: ls, f)
      | .ok none =>
        match getDecrefLocationsVars sro idx rest with
        | .error e => .error e
        | .ok (ls, _) => .ok (ls, true)
    else getDecrefLocationsVars sro idx rest

/-- The owned-attribute entries of Rewriter::getDecrefLocations
(rewriter.cpp:1256-1276): each registered (var, byte offset) pair is
published as StackIndirect(stack offset of the var's location or of its
scratch allocation, byte offset).  The debug-only ASSERTs are omitted. -/
def ownedAttrEntries (sro : Int) (owned_attrs : List (RewriterVar × Int)) :
    List Location :=
  owned_attrs.map (fun p =>
    let l := match p.1.locations.head? with
      | some l0 => l0
      | none => getScratchLocation p.1 0
    Location.StackIndirect (indirectForOffset sro l) p.2)

/-- Rewriter::getDecrefLocations (rewriter.cpp:1227-1279): the per-var
entries followed by the owned-attribute entries, plus the failed flag. -/
def getDecrefLocations (sro : Int) (idx : Nat) (vars : List RewriterVar)
    (owned_attrs : List (RewriterVar × Int)) : Except Unit (List Location × Bool) :=
  match getDecrefLocationsVars sro idx vars with
  | .error e => .error e
  | .ok (ls, f) => .ok (ls ++ ownedAttrEntries sro owned_attrs, f)

/-- Outcome of Rewriter::commit: an aborted rewrite installs no code. -/
inductive CommitOutcome
  | Aborted | Committed
deriving DecidableEq, Repr

/-- The failure skeleton of Rewriter::commit (rewriter.cpp:1434-1438 and
1526-1533): commit aborts before emitting anything when the sticky failed
flag is already set, and re-checks the flag after every emitted action,
aborting (installing nothing) as soon as it is observed.  Each action is
abstracted to its effect on the flag. -/
def commitRun : List (Bool → Bool) → Bool → CommitOutcome
  | _, true => .Aborted
  | [], false => .Committed
  | a :: rest, false => commitRun rest (a false)

/-- The entry claim C2 says gets recorded for a qualifying var: its Scratch
location converted to a stack offset from SP when it has one, else a
non-caller-clobbered register location.  Stated from the claim's words, to be
compared with the source translation above. -/
def claimDecrefEntry (sro : Int) (v : RewriterVar) : Option Location :=
  match v.locations.findSome? (fun l => match l with
      | Location.Scratch off => some off
      | _ => none) with
  | some off => some (.Stack (sro + off))
  | none => v.locations.findSome? (fun l => match l with
      | Location.Register r =>
        if (Location.Register r).isClobberedByCall then none
        else some (.Register r)
      | _ => none)

/-- What one location contributes in the source's scan order: a Scratch slot
converted to a stack offset, or a non-caller-clobbered register. -/
def eligibleEntry (sro : Int) : Location → Option Location
  | .Scratch off => some (.Stack (sro + off))
  | .Register r =>
    if (Location.Register r).isClobberedByCall then none else some (.Register r)
  | _ => none

/-- Location kinds the decref scan implements (anything else release-asserts). -/
def scratchOrRegister : Location → Bool
  | .Scratch _ => true
  | .Register _ => true
  | _ => false

/-- An Owned var that sits in callee-save RBX and in scratch slot 0, with the
register location first in its location list. -/
def c2Var : RewriterVar :=
  { reftype := .OWNED, locations := [.Register .RBX, .Scratch 0] }

/-- C2 (counterexample).  A qualifying Owned var whose location list holds a
non-caller-clobbered register before a Scratch slot: the code records the
register entry (the first eligible location in list order), while the claim
prescribes the Scratch location converted to a stack offset whenever the var
has one, so the claim's scratch-over-register preference does not describe
the code. -/
theorem decref_entry_order_counterexample :
    c2Var.needsDecref 0 = true
    ∧ getDecrefLocations 64 0 [c2Var] [] = .ok ([.Register .RBX], false)
    ∧ claimDecrefEntry 64 c2Var = some (.Stack 64)
    ∧ (Location.Register .RBX) ≠ (.Stack 64) :=
  ⟨by decide, by rfl, by decide, by decide⟩

theorem findDecrefLocation_eq (sro : Int) (locs : List Location)
    (h : ∀ l ∈ locs, scratchOrRegister l = true) :
    findDecrefLocation sro locs = .ok (locs.findSome? (eligibleEntry sro)) := by
  induction locs with
  | nil => rfl
  | cons l rest ih =>
    cases l with
    | Scratch off => simp [findDecrefLocation, List.findSome?_cons, eligibleEntry]
    | Register r =>
      by_cases hc : (Location.Register r).isClobberedByCall = true
      · rw [findDecrefLocation, if_pos hc,
          ih (fun l0 hl0 => h l0 (List.mem_cons_of_mem _ hl0))]
        simp [List.findSome?_cons, eligibleEntry, hc]
      · rw [findDecrefLocation, if_neg hc]
        simp [List.findSome?_cons, eligibleEntry, Bool.eq_false_iff.mpr hc]
    | XMMRegister n => exact absurd (h _ (List.mem_cons_self _ _)) (by simp [scratchOrRegister])
    | Stack off => exact absurd (h _ (List.mem_cons_self _ _)) (by simp [scratchOrRegister])
    | StackIndirect o1 o2 =>
      exact absurd (h _ (List.mem_cons_self _ _)) (by simp [scratchOrRegister])
    | AnyReg => exact absurd (h _ (List.mem_cons_self _ _)) (by simp [scratchOrRegister])
    | LNone => exact absurd (h _ (List.mem_cons_self _ _)) (by simp [scratchOrRegister])
    | Uninitialized =>
      exact absurd (h _ (List.mem_cons_self _ _)) (by simp [scratchOrRegister])

theorem getDecrefLocationsVars_eq (sro : Int) (idx : Nat) (vars : List RewriterVar)
    (h : ∀ v ∈ vars, ∀ l ∈ v.locations, scratchOrRegister l = true) :
    getDecrefLocationsVars sro idx vars = .ok
      ((vars.filter (qualifiesForDecref idx)).filterMap
          (fun v => v.locations.findSome? (eligibleEntry sro)),
        (vars.filter (qualifiesForDecref idx)).any
          (fun v => (v.locations.findSome? (eligibleEntry sro)).isNone)) := by
  induction vars with
  | nil => rfl
  | cons v rest ih =>
    have hv := h v (List.mem_cons_self v rest)
    have hrest : ∀ v0 ∈ rest, ∀ l ∈ v0.locations, scratchOrRegister l = true :=
      fun v0 hv0 => h v0 (List.mem_cons_of_mem v hv0)
    by_cases hq : qualifiesForDecref idx v = true
    · rw [getDecrefLocationsVars, if_pos hq, findDecrefLocation_eq sro v.locations hv]
      cases hfs : v.locations.findSome? (eligibleEntry sro) with
      | some l =>
        rw [ih hrest]
        simp [List.filter_cons, hq, List.filterMap_cons, hfs]
      | none =>
        rw [ih hrest]
        simp [List.filter_cons, hq, List.filterMap_cons, hfs]
    · rw [getDecrefLocationsVars, if_neg hq, ih hrest]
      simp [List.filter_cons, Bool.eq_false_iff.mpr hq]

/-- C2 (amended).  At a throwing call site, with every live location of the
tracked vars a Scratch slot or a GP register (the only kinds the scan
implements; others release-assert): for each var that is Owned and
needsDecref at the current action, the recorded entry is the first location
in its location list that is either a Scratch slot (converted to a stack
offset from SP) or a non-caller-clobbered register; a qualifying var with
locations but no such location sets the sticky failed flag; and commit
aborts without installing any code once the failed flag is set, whether
before emission or right after the action that set it. -/
theorem decref_entry_first_eligible (sro : Int) (idx : Nat)
    (vars : List RewriterVar) (owned_attrs : List (RewriterVar × Int))
    (h : ∀ v ∈ vars, ∀ l ∈ v.locations, scratchOrRegister l = true) :
    getDecrefLocations sro idx vars owned_attrs = .ok
      ((vars.filter (qualifiesForDecref idx)).filterMap
          (fun v => v.locations.findSome? (eligibleEntry sro))
        ++ ownedAttrEntries sro owned_attrs,
        (vars.filter (qualifiesForDecref idx)).any
          (fun v => (v.locations.findSome? (eligibleEntry sro)).isNone))
    ∧ (∀ steps : List (Bool → Bool), commitRun steps true = .Aborted)
    ∧ (∀ (a : Bool → Bool) (rest : List (Bool → Bool)), a false = true →
        commitRun (a :: rest) false = .Aborted) := by
  refine ⟨?_, ?_, ?_⟩
  · rw [getDecrefLocations, getDecrefLocationsVars_eq sro idx vars h]
  · intro steps
    cases steps <;> rfl
  · intro a rest ha
    rw [commitRun, ha]
    cases rest <;> rfl

/-- A qualifying Owned var living only in scratch slot 1 (offset 8). -/
def c2WitnessVar : RewriterVar :=
  { reftype := .OWNED, locations := [.Scratch 8] }

theorem decref_entry_first_eligible_witness :
    getDecrefLocations 64 0 [c2WitnessVar] [] = .ok ([.Stack 72], false) := by
  have h := (decref_entry_first_eligible 64 0 [c2WitnessVar] []
    (by intro v hv l hl; fin_cases hv; fin_cases hl; rfl)).1
  simpa using h

end Pyston
